import Mathlib

/-!
Verification of the indexing and scoring core of `backend/analysis.py`.

Python dicts are modelled as insertion-ordered association lists; a Python
KeyError, IndexError or ZeroDivisionError is modelled as `none`; the irrational
library functions `math.log(x, 2)` and `math.sqrt` are abstract parameters of
type `ℚ → ℚ` (float arithmetic is modelled as exact rational arithmetic).
-/

namespace BannedBooks

/-- Index type of analysis.py: a dict from term to posting list of
(document id, term frequency) pairs, as an insertion-ordered association list. -/
abbrev Index := List (String × List (ℕ × ℕ))

/-- Association-list lookup, modelling a Python dict lookup `d[k]` / `k in d`. -/
def alookup {κ α : Type} [DecidableEq κ] : List (κ × α) → κ → Option α
  | [], _ => none
  | (k, v) :: rest, key => if k = key then some v else alookup rest key

/-- Python dict assignment `d[k] = v`: overwrites the value in place when `k` is
present, otherwise appends the new key at the end (insertion order). -/
def dictInsert {κ α : Type} [DecidableEq κ] : List (κ × α) → κ → α → List (κ × α)
  | [], k, v => [(k, v)]
  | (k0, v0) :: rest, k, v =>
    if k0 = k then (k0, v) :: rest else (k0, v0) :: dictInsert rest k v

/-- Characters kept by the tokenizer regex [a-z]+ of `tokenize` (line 17). -/
def isLowerAlpha (c : Char) : Bool := decide ('a' ≤ c) && decide (c ≤ 'z')

/-- Scanner for `re.findall` with pattern [a-z]+: walks the characters keeping the
current run of lowercase letters (reversed) in `cur` and emits each maximal run. -/
def tokenizeGo : List Char → List Char → List String
  | [], cur => if cur.isEmpty then [] else [String.mk cur.reverse]
  | c :: rest, cur =>
    if isLowerAlpha c then tokenizeGo rest (c :: cur)
    else if cur.isEmpty then tokenizeGo rest []
    else String.mk cur.reverse :: tokenizeGo rest []

/-- Characters of `text.lower()`.  The regex only ever keeps ASCII letters, so the
ASCII `Char.toLower` is a faithful model of the lowercasing step. -/
def lowerChars (text : String) : List Char := text.toList.map Char.toLower

/-- `tokenize` of analysis.py (lines 15-19): lowercase the text, then extract every
maximal run of letters a-z, in left-to-right order, duplicates retained. -/
def tokenize (text : String) : List String := tokenizeGo (lowerChars text) []

/-- Loop of `build_doc_inverted_index` (lines 38-41): `inv_idx[doc_lst[i]] = i` for
each position i, taken left to right. -/
def build_doc_go : List String → ℕ → List (String × ℕ) → List (String × ℕ)
  | [], _, acc => acc
  | doc :: rest, i, acc => build_doc_go rest (i + 1) (dictInsert acc doc i)

/-- `build_doc_inverted_index` of analysis.py (lines 24-41): dict from document
text to document index; a text occurring several times keeps the index written
last (later assignments overwrite earlier ones). -/
def build_doc_inverted_index (doc_lst : List String) : List (String × ℕ) :=
  build_doc_go doc_lst 0 []

/-- Position of the last occurrence of a text in a list, if any (specification
helper for `build_doc_inverted_index`). -/
def lastOcc : List String → String → Option ℕ
  | [], _ => none
  | d :: rest, text =>
    match lastOcc rest text with
    | some j => some (j + 1)
    | none => if d = text then some 0 else none

/-- `token_inv_idx[tok].append((doc_idx, tf))`, creating the entry `[(doc_idx, tf)]`
for a token not yet present (new dict keys enter at the end, insertion order). -/
def appendPosting : Index → String → ℕ × ℕ → Index
  | [], tok, p => [(tok, [p])]
  | (t, ps) :: rest, tok, p =>
    if t = tok then (t, ps ++ [p]) :: rest else (t, ps) :: appendPosting rest tok p

/-- Inner loop of `build_token_inverted_index_with_freq` over one document: for
each distinct token of the document, append `(doc_idx, count of the token in the
document's full token sequence)`.  Python iterates `list(set(...))` in an
unspecified order; the model uses `List.dedup`, a fixed duplicate-free
enumeration of the same set of tokens. -/
def addDocPostings (doc_idx : ℕ) (doc_tokenized : List String) (idx : Index) : Index :=
  doc_tokenized.dedup.foldl
    (fun a tok => appendPosting a tok (doc_idx, doc_tokenized.count tok)) idx

/-- Outer loop of `build_token_inverted_index_with_freq` (lines 126-134): per
document, reads `doc_inv_idx[doc]` (KeyError, i.e. `none`, if absent) and inserts
the document's postings. -/
def build_token_go (doc_inv_idx : List (String × ℕ)) : List String → Index → Option Index
  | [], idx => some idx
  | doc :: rest, idx =>
    match alookup doc_inv_idx doc with
    | none => none
    | some doc_idx => build_token_go doc_inv_idx rest (addDocPostings doc_idx (tokenize doc) idx)

/-- `build_token_inverted_index_with_freq` of analysis.py (lines 91-136). -/
def build_token_inverted_index_with_freq (doc_lst : List String)
    (doc_inv_idx : List (String × ℕ)) : Option Index :=
  build_token_go doc_inv_idx doc_lst []

/-- Loop of `boolean_search` (lines 167-173): intersect the running result set with
each query token's posting set; a token absent from the index short-circuits to
the empty list.  Python returns `list(results)` in unspecified set-iteration
order; the model returns the ascending enumeration of the final set, matching the
order the function's own docstring documents ("increasing order"). -/
def boolean_go (token_inv_idx : List (String × List ℕ)) : List String → Finset ℕ → List ℕ
  | [], results => results.sort (· ≤ ·)
  | tok :: rest, results =>
    match alookup token_inv_idx tok with
    | none => []
    | some ds => boolean_go token_inv_idx rest (results ∩ ds.toFinset)

/-- `boolean_search` of analysis.py (lines 139-173): conjunctive matching starting
from the full universe `set(range(num_docs))`. -/
def boolean_search (query : String) (token_inv_idx : List (String × List ℕ))
    (num_docs : ℕ) : List ℕ :=
  boolean_go token_inv_idx (tokenize query) (Finset.range num_docs)

/-- `dict(Counter(tokens))`: term-frequency mapping of a token list; each distinct
token maps to its number of occurrences. -/
def counterOf (tokens : List String) : List (String × ℕ) :=
  tokens.dedup.map (fun tok => (tok, tokens.count tok))

/-- `word_counts` of analysis.py (lines 178-189). -/
def word_counts (str_query : String) : List (String × ℕ) := counterOf (tokenize str_query)

/-- `compute_idf` of analysis.py (lines 191-224), parameterized by `log2`, the
model of `math.log(x, 2)`: keeps each term whose document frequency
df = len(inv_idx[term]) satisfies min_df ≤ df and df / n_docs < max_df_ratio,
with value log2(n_docs / (1 + df)), in index iteration order. -/
def compute_idf (log2 : ℚ → ℚ) (inv_idx : Index) (n_docs : ℕ) (min_df : ℕ)
    (max_df_ratio : ℚ) : List (String × ℚ) :=
  (inv_idx.filter (fun e =>
      decide (min_df ≤ e.2.length) &&
        decide ((e.2.length : ℚ) / (n_docs : ℚ) < max_df_ratio))).map
    (fun e => (e.1, log2 ((n_docs : ℚ) / (1 + (e.2.length : ℚ)))))

/-- Squared-norm sum of `compute_doc_norms` for one document: the sum of
(tf * idf_val)^2 over idf entries whose posting list `index.get(word, [])`
contains the document.  The Python code groups exactly these addends per document
in `doc_dict` before summing; over ℚ both groupings have equal sums. -/
def doc_norm_sum (index : Index) (idf : List (String × ℚ)) (doc_id : ℕ) : ℚ :=
  (idf.map (fun e =>
    ((((alookup index e.1).getD []).filter (fun p => p.1 = doc_id)).map
      (fun p => ((p.2 : ℚ) * e.2) ^ 2)).sum)).sum

/-- `compute_doc_norms` of analysis.py (lines 226-254), parameterized by `sqrt`
modelling `math.sqrt`: norms_array[d] = sqrt of the squared-norm sum of d. -/
def compute_doc_norms (sqrt : ℚ → ℚ) (index : Index) (idf : List (String × ℚ))
    (n_docs : ℕ) : List ℚ :=
  (List.range n_docs).map (fun d => sqrt (doc_norm_sum index idf d))

/-- Python dict update `doc_scores[doc] = doc_scores.get(doc, 0) + v`: adds to the
value in place when the key exists, otherwise appends it (insertion order). -/
def updateScore : List (ℕ × ℚ) → ℕ → ℚ → List (ℕ × ℚ)
  | [], doc, v => [(doc, v)]
  | (d, s) :: rest, doc, v =>
    if d = doc then (d, s + v) :: rest else (d, s) :: updateScore rest doc v

/-- Inner loop of `accumulate_dot_scores` over one matched term's posting list:
accumulates tf * query_tf * idf_val^2 for each posting. -/
def accumPostings (qc : ℕ) (idf_val : ℚ) (postings : List (ℕ × ℕ))
    (scores : List (ℕ × ℚ)) : List (ℕ × ℚ) :=
  postings.foldl (fun sc p => updateScore sc p.1 ((p.2 : ℚ) * (qc : ℚ) * idf_val ^ 2)) scores

/-- Term-at-a-time loop of `accumulate_dot_scores` (lines 275-283): iterates the
index in insertion order; for a term also present in the query it reads
`idf[word]` inside the posting loop - a KeyError (`none`) when the term was
pruned from idf and the posting list is nonempty. -/
def accumulate_go (query_word_counts : List (String × ℕ)) (idf : List (String × ℚ)) :
    Index → List (ℕ × ℚ) → Option (List (ℕ × ℚ))
  | [], scores => some scores
  | (word, word_docs) :: rest, scores =>
    match alookup query_word_counts word with
    | none => accumulate_go query_word_counts idf rest scores
    | some qc =>
      match word_docs with
      | [] => accumulate_go query_word_counts idf rest scores
      | _ :: _ =>
        match alookup idf word with
        | none => none
        | some idf_val =>
          accumulate_go query_word_counts idf rest (accumPostings qc idf_val word_docs scores)

/-- `accumulate_dot_scores` of analysis.py (lines 256-285). -/
def accumulate_dot_scores (query_word_counts : List (String × ℕ)) (index : Index)
    (idf : List (String × ℚ)) : Option (List (ℕ × ℚ)) :=
  accumulate_go query_word_counts idf index []

/-- Query-norm accumulation of `index_search` (lines 334-338): iterates over the
token list of the query (duplicate occurrences included, as the code does),
adding (idf[token] * query_tf[token])^2 for every occurrence of a token that is
present in idf. -/
def query_norm_m (idf : List (String × ℚ)) (tokens : List String) : ℚ :=
  (tokens.map (fun token =>
    match alookup idf token with
    | none => 0
    | some iv => (iv * (tokens.count token : ℚ)) ^ 2)).sum

/-- Result loop of `index_search` (lines 342-344): divides each accumulated score
by denom_factor * doc_norms[doc].  An out-of-range document id (IndexError) or a
zero denominator (ZeroDivisionError) is a Python exception, modelled as `none`. -/
def rankResults (denom_factor : ℚ) (doc_norms : List ℚ) :
    List (ℕ × ℚ) → Option (List (ℚ × ℕ))
  | [] => some []
  | (doc, s) :: rest =>
    match doc_norms.get? doc with
    | none => none
    | some dn =>
      if denom_factor * dn = 0 then none
      else
        match rankResults denom_factor doc_norms rest with
        | none => none
        | some rs => some ((s / (denom_factor * dn), doc) :: rs)

/-- Descending-score order of `sorted(results, key=lambda x: x[0], reverse=True)`. -/
def scoreGE (a b : ℚ × ℕ) : Prop := b.1 ≤ a.1

instance : DecidableRel scoreGE := fun a b => inferInstanceAs (Decidable (b.1 ≤ a.1))

instance : IsTotal (ℚ × ℕ) scoreGE := ⟨fun a b => le_total b.1 a.1⟩

instance : IsTrans (ℚ × ℕ) scoreGE := ⟨fun _ _ _ h1 h2 => le_trans h2 h1⟩

/-- `index_search` of analysis.py (lines 287-346), parameterized by `sqrt`
modelling `math.sqrt`.  The code first replaces the query by `query.lower()`
and then applies the tokenizer (which lowercases again); `tokenize_toLower`
below shows the double lowercasing is the same as one pass.  Python's `sorted`
is stable; it is modelled by the stable `List.insertionSort`. -/
def index_search (sqrt : ℚ → ℚ) (query : String) (index : Index)
    (idf : List (String × ℚ)) (doc_norms : List ℚ) : Option (List (ℚ × ℕ)) :=
  let lowered := query.toLower
  match accumulate_dot_scores (counterOf (tokenize lowered)) index idf with
  | none => none
  | some num_vals =>
    match rankResults (sqrt (query_norm_m idf (tokenize lowered))) doc_norms num_vals with
    | none => none
    | some results => some (List.insertionSort scoreGE results)

/-- Dot product of two rational vectors (one row of `np.dot`). -/
def dotList (a b : List ℚ) : ℚ := (List.zipWith (fun x y => x * y) a b).sum

/-- Comparison modelling `np.argsort(-sims)`: index i may precede index j when
sims[i] ≥ sims[j].  Ties keep ascending index order (numpy's default sort leaves
tie order unspecified; the model fixes the stable choice). -/
def simGE (sims : List ℚ) (i j : ℕ) : Prop := sims.getD j 0 ≤ sims.getD i 0

instance (sims : List ℚ) : DecidableRel (simGE sims) :=
  fun i j => inferInstanceAs (Decidable (sims.getD j 0 ≤ sims.getD i 0))

instance (sims : List ℚ) : IsTotal ℕ (simGE sims) := ⟨fun _ _ => le_total _ _⟩

instance (sims : List ℚ) : IsTrans ℕ (simGE sims) := ⟨fun _ _ _ h1 h2 => le_trans h2 h1⟩

/-- `closest_projects_to_query` of analysis.py (lines 385-399) after the query
projection of line 396 (`normalize(np.dot(query_vec, words_compressed_normed))`,
the spec's `embed_query`), whose L2-normalized output is the `new_query_vec`
argument here: sims = docs_compressed_normed.dot(new_query_vec), and the result
is `np.argsort(-sims)[:k+1]`. -/
def closest_projects_to_query (docs_compressed_normed : List (List ℚ))
    (new_query_vec : List ℚ) (k : ℕ) : List ℕ :=
  let sims := docs_compressed_normed.map (fun row => dotList row new_query_vec)
  List.take (k + 1) (List.insertionSort (simGE sims) (List.range sims.length))

/-- Score read-back `doc_scores.get(d, 0)`. -/
def scoreOf (scores : List (ℕ × ℚ)) (d : ℕ) : ℚ := (alookup scores d).getD 0

/-- Closed form of the dot product `accumulate_dot_scores` computes for document d
when it succeeds: the sum, over index entries whose term is both in the query and
in idf, of tf * query_tf * idf^2 over the postings of d. -/
def dotScore (q : List (String × ℕ)) (idf : List (String × ℚ)) (index : Index)
    (d : ℕ) : ℚ :=
  (index.map (fun e =>
    match alookup q e.1, alookup idf e.1 with
    | some qc, some iv =>
      ((e.2.filter (fun p => p.1 = d)).map (fun p => (p.2 : ℚ) * (qc : ℚ) * iv ^ 2)).sum
    | _, _ => 0)).sum

/-- Document d shares at least one term with the query according to the index. -/
def SharesTerm (q : List (String × ℕ)) (index : Index) (d : ℕ) : Prop :=
  ∃ w ps tf, (w, ps) ∈ index ∧ (alookup q w).isSome ∧ (d, tf) ∈ ps

/-- Posting-list invariants claimed for the inverted index: document ids strictly
ascending (hence unique) and every term frequency at least 1. -/
def IndexInv (idx : Index) : Prop :=
  ∀ e ∈ idx, ((e.2.map Prod.fst).Pairwise (· < ·)) ∧ ∀ p ∈ e.2, 1 ≤ p.2

/-- Example collection of spec section 8. -/
def docs3 : List String := ["the cat sat", "the dog sat on the mat", "cats and dogs"]

/-- Token inverted index the model builds for `docs3`. -/
def idx3 : Index :=
  [("the", [(0, 1), (1, 2)]), ("cat", [(0, 1)]), ("sat", [(0, 1), (1, 1)]),
   ("dog", [(1, 1)]), ("on", [(1, 1)]), ("mat", [(1, 1)]),
   ("cats", [(2, 1)]), ("and", [(2, 1)]), ("dogs", [(2, 1)])]

/-- Rational stand-in for base-2 log agreeing with it where the `docs3` example
needs it: log2 1 = 0 and log2 (3/2) > 0. -/
def log2Standin (q : ℚ) : ℚ := if q = 1 then 0 else 1

/-- Rational stand-in for sqrt; in the `docs3` example it is only ever applied to
1 = 1^2, where the identity is the exact square root. -/
def sqrtStandin (q : ℚ) : ℚ := q

/-! ### Supporting lemmas: lowercasing and tokenization -/

theorem toNat_ofNat_valid (n : ℕ) (h : n.isValidChar) : (Char.ofNat n).toNat = n := by
  unfold Char.ofNat
  rw [dif_pos h]
  unfold Char.ofNatAux
  simp [Char.toNat, UInt32.toNat]

theorem char_toLower_fix (c : Char) (h : ¬(c.toNat ≥ 65 ∧ c.toNat ≤ 90)) :
    c.toLower = c := by
  unfold Char.toLower
  exact if_neg h

theorem char_toLower_idem (c : Char) : c.toLower.toLower = c.toLower := by
  by_cases h : c.toNat ≥ 65 ∧ c.toNat ≤ 90
  · have h2 : c.toLower = Char.ofNat (c.toNat + 32) := by
      unfold Char.toLower
      exact if_pos h
    have hv : (c.toNat + 32).isValidChar := by
      left
      omega
    apply char_toLower_fix
    rw [h2, toNat_ofNat_valid _ hv]
    omega
  · rw [char_toLower_fix c h, char_toLower_fix c h]

theorem lowerChars_toLower (s : String) : lowerChars s.toLower = lowerChars s := by
  simp only [lowerChars, String.toLower, String.map_eq]
  show (s.data.map Char.toLower).map Char.toLower = s.data.map Char.toLower
  rw [List.map_map]
  apply List.map_congr_left
  intro c _
  exact char_toLower_idem c

theorem tokenize_toLower (s : String) : tokenize s.toLower = tokenize s := by
  rw [tokenize, tokenize, lowerChars_toLower]

/-! ### Supporting lemmas: association lists -/

theorem alookup_dictInsert {κ α : Type} [DecidableEq κ] (acc : List (κ × α))
    (k key : κ) (v : α) :
    alookup (dictInsert acc k v) key = if k = key then some v else alookup acc key := by
  induction acc with
  | nil => simp [dictInsert, alookup]
  | cons e rest ih =>
    obtain ⟨k0, v0⟩ := e
    by_cases h1 : k0 = k
    · subst h1
      simp only [dictInsert, if_pos rfl, alookup]
      by_cases h2 : k0 = key <;> simp [h2]
    · simp only [dictInsert, if_neg h1, alookup]
      by_cases h2 : k0 = key
      · subst h2
        have hk : k ≠ k0 := fun he => h1 he.symm
        simp [hk]
      · simp [h2, ih]

theorem alookup_isSome_iff {κ α : Type} [DecidableEq κ] (l : List (κ × α)) (key : κ) :
    (alookup l key).isSome ↔ key ∈ l.map Prod.fst := by
  induction l with
  | nil => simp [alookup]
  | cons e rest ih =>
    obtain ⟨k, v⟩ := e
    simp only [alookup, List.map_cons, List.mem_cons]
    by_cases h : k = key
    · subst h
      simp
    · rw [if_neg h]
      constructor
      · intro hs
        exact Or.inr (ih.mp hs)
      · intro hmem
        rcases hmem with he | hm
        · exact absurd he.symm h
        · exact ih.mpr hm

/-! ### Supporting lemmas: document-id assignment -/

theorem lastOcc_none (l : List String) (text : String)
    (h : ∀ j (hj : j < l.length), l.get ⟨j, hj⟩ ≠ text) : lastOcc l text = none := by
  induction l with
  | nil => rfl
  | cons d rest ih =>
    have h0 : d ≠ text := h 0 (by simp)
    have hr : lastOcc rest text = none := by
      apply ih
      intro j hj
      exact h (j + 1) (by simpa using Nat.succ_lt_succ hj)
    simp [lastOcc, hr, h0]

theorem lastOcc_of_last (l : List String) (text : String) (i : ℕ) (hi : i < l.length)
    (hget : l.get ⟨i, hi⟩ = text)
    (hlast : ∀ j (hj : j < l.length), i < j → l.get ⟨j, hj⟩ ≠ text) :
    lastOcc l text = some i := by
  induction l generalizing i with
  | nil => exact absurd hi (by simp)
  | cons d rest ih =>
    cases i with
    | zero =>
      have hr : lastOcc rest text = none := by
        apply lastOcc_none
        intro j hj
        exact hlast (j + 1) (by simpa using Nat.succ_lt_succ hj) (Nat.succ_pos j)
      have hd : d = text := hget
      simp [lastOcc, hr, hd]
    | succ i' =>
      have hi' : i' < rest.length := by simpa using Nat.lt_of_succ_lt_succ hi
      have hr : lastOcc rest text = some i' := by
        apply ih
        · exact hget
        · intro j hj hgt
          exact hlast (j + 1) (by simpa using Nat.succ_lt_succ hj) (Nat.succ_lt_succ hgt)
      simp [lastOcc, hr]

theorem alookup_build_doc_go (l : List String) :
    ∀ (i : ℕ) (acc : List (String × ℕ)) (text : String),
      alookup (build_doc_go l i acc) text =
        (lastOcc l text).elim (alookup acc text) (fun j => some (i + j)) := by
  induction l with
  | nil => intro i acc text; rfl
  | cons d rest ih =>
    intro i acc text
    show alookup (build_doc_go rest (i + 1) (dictInsert acc d i)) text = _
    rw [ih]
    cases hr : lastOcc rest text with
    | some j =>
      simp only [lastOcc, hr, Option.elim]
      congr 1
      omega
    | none =>
      simp only [lastOcc, hr, Option.elim, alookup_dictInsert]
      by_cases hd : d = text <;> simp [hd]

/-- C1: the claim says `accumulate_dot_scores` skips a query term that is present
in the inverted index but absent from the IDF table and still returns a score
mapping.  The code instead reads `idf[word]` unconditionally for any indexed
term matching the query, raising KeyError (modelled as `none`): on the query
{cat: 1}, the index {cat: [(0, 1)]} and the empty IDF table, it fails instead of
returning a mapping. -/
theorem accumulate_dot_scores_fails_on_pruned_term :
    accumulate_dot_scores [(("cat"), 1)] [(("cat"), [(0, 1)])] [] = none := rfl

theorem alookup_build_doc_of_last (doc_lst : List String) (i : ℕ)
    (hi : i < doc_lst.length)
    (hlast : ∀ j (hj : j < doc_lst.length), i < j → doc_lst.get ⟨j, hj⟩ ≠ doc_lst.get ⟨i, hi⟩) :
    alookup (build_doc_inverted_index doc_lst) (doc_lst.get ⟨i, hi⟩) = some i := by
  rw [build_doc_inverted_index, alookup_build_doc_go,
    lastOcc_of_last doc_lst (doc_lst.get ⟨i, hi⟩) i hi rfl hlast]
  simp

/-- C4 (amended): `build_doc_inverted_index` maps each document text to the
position of its LAST occurrence in the sequence, not its first: if position i
holds text t and no later position does, then the index assigns id i to t.  For
collections without duplicate texts this is the text's unique position. -/
theorem build_doc_inverted_index_last_occurrence (doc_lst : List String) (i : ℕ)
    (hi : i < doc_lst.length)
    (hlast : ∀ j (hj : j < doc_lst.length), i < j → doc_lst.get ⟨j, hj⟩ ≠ doc_lst.get ⟨i, hi⟩) :
    alookup (build_doc_inverted_index doc_lst) (doc_lst.get ⟨i, hi⟩) = some i :=
  alookup_build_doc_of_last doc_lst i hi hlast

/-- Witness for C4 (amended): in ["a", "b", "a"] the text "a" last occurs at
position 2 and the built index assigns it id 2. -/
theorem build_doc_inverted_index_last_occurrence_witness :
    alookup (build_doc_inverted_index [("a"), ("b"), ("a")]) ("a") = some 2 :=
  build_doc_inverted_index_last_occurrence [("a"), ("b"), ("a")] 2 (by decide)
    (by intro j hj hgt; simp only [List.length_cons, List.length_nil] at hj; omega)

/-- Counterexample to C4 as stated: in ["a", "a"] the first occurrence of "a" is
position 0, but the id assigned is 1 (the last occurrence), so the id of a text
does not equal the position of its first occurrence. -/
theorem build_doc_inverted_index_not_first_seen :
    alookup (build_doc_inverted_index [("a"), ("a")]) ("a") = some 1 ∧
      alookup (build_doc_inverted_index [("a"), ("a")]) ("a") ≠ some 0 := by
  constructor
  · rfl
  · decide

/-! ### Supporting lemmas: inverted-index construction -/

theorem mem_appendPosting (idx : Index) (tok : String) (p : ℕ × ℕ) :
    ∀ e ∈ appendPosting idx tok p,
      e ∈ idx ∨ (e.1 = tok ∧ (e.2 = [p] ∨ ∃ ps, (tok, ps) ∈ idx ∧ e.2 = ps ++ [p])) := by
  induction idx with
  | nil =>
    intro e he
    have he' : e = (tok, [p]) := List.mem_singleton.mp he
    subst he'
    exact Or.inr ⟨rfl, Or.inl rfl⟩
  | cons entry rest ih =>
    obtain ⟨t, ps⟩ := entry
    intro e he
    have he' : e ∈ if t = tok then (t, ps ++ [p]) :: rest
        else (t, ps) :: appendPosting rest tok p := he
    by_cases ht : t = tok
    · rw [if_pos ht, List.mem_cons] at he'
      rcases he' with he' | he'
      · subst he'
        exact Or.inr ⟨ht, Or.inr ⟨ps, ht ▸ List.mem_cons_self _ _, rfl⟩⟩
      · exact Or.inl (List.mem_cons_of_mem _ he')
    · rw [if_neg ht, List.mem_cons] at he'
      rcases he' with he' | he'
      · exact Or.inl (he' ▸ List.mem_cons_self _ _)
      · rcases ih e he' with h1 | ⟨h2, h3 | ⟨ps', hps', h4⟩⟩
        · exact Or.inl (List.mem_cons_of_mem _ h1)
        · exact Or.inr ⟨h2, Or.inl h3⟩
        · exact Or.inr ⟨h2, Or.inr ⟨ps', List.mem_cons_of_mem _ hps', h4⟩⟩

theorem appendPosting_step (idx : Index) (tok : String) (i tf : ℕ) (rem : List String)
    (htok : tok ∉ rem) (htf : 1 ≤ tf)
    (hinv : IndexInv idx)
    (hbnd : ∀ e ∈ idx, ∀ q ∈ e.2, q.1 < i + 1)
    (hrem : ∀ e ∈ idx, (e.1 = tok ∨ e.1 ∈ rem) → ∀ q ∈ e.2, q.1 < i) :
    IndexInv (appendPosting idx tok (i, tf)) ∧
      (∀ e ∈ appendPosting idx tok (i, tf), ∀ q ∈ e.2, q.1 < i + 1) ∧
      (∀ e ∈ appendPosting idx tok (i, tf), e.1 ∈ rem → ∀ q ∈ e.2, q.1 < i) := by
  have key : ∀ e ∈ appendPosting idx tok (i, tf),
      (((e.2.map Prod.fst).Pairwise (· < ·)) ∧ ∀ q ∈ e.2, 1 ≤ q.2) ∧
        (∀ q ∈ e.2, q.1 < i + 1) ∧ (e.1 ∈ rem → ∀ q ∈ e.2, q.1 < i) := by
    intro e he
    rcases mem_appendPosting idx tok (i, tf) e he with hold | ⟨hkey, hnew | ⟨ps, hps, hcat⟩⟩
    · exact ⟨hinv e hold, hbnd e hold, fun hr => hrem e hold (Or.inr hr)⟩
    · refine ⟨⟨?_, ?_⟩, ?_, ?_⟩
      · rw [hnew]
        simp
      · rw [hnew]
        intro q hq
        rw [List.mem_singleton] at hq
        subst hq
        exact htf
      · rw [hnew]
        intro q hq
        rw [List.mem_singleton] at hq
        subst hq
        omega
      · intro hr
        exact absurd (hkey ▸ hr) htok
    · have hlt : ∀ q ∈ ps, q.1 < i := hrem (tok, ps) hps (Or.inl rfl)
      refine ⟨⟨?_, ?_⟩, ?_, ?_⟩
      · rw [hcat, List.map_append]
        rw [List.pairwise_append]
        refine ⟨(hinv (tok, ps) hps).1, by simp, ?_⟩
        intro x hx y hy
        simp only [List.map_cons, List.map_nil, List.mem_singleton] at hy
        subst hy
        obtain ⟨q, hq, hqx⟩ := List.mem_map.mp hx
        exact hqx ▸ hlt q hq
      · rw [hcat]
        intro q hq
        rcases List.mem_append.mp hq with h1 | h1
        · exact (hinv (tok, ps) hps).2 q h1
        · rw [List.mem_singleton] at h1
          subst h1
          exact htf
      · rw [hcat]
        intro q hq
        rcases List.mem_append.mp hq with h1 | h1
        · exact Nat.lt_succ_of_lt (hlt q h1)
        · rw [List.mem_singleton] at h1
          subst h1
          omega
      · intro hr
        exact absurd (hkey ▸ hr) htok
  exact ⟨fun e he => (key e he).1, fun e he => (key e he).2.1, fun e he => (key e he).2.2⟩

theorem addDoc_fold_inv (i : ℕ) (toks : List String) :
    ∀ (tokSet : List String) (idx : Index), tokSet.Nodup →
      IndexInv idx →
      (∀ e ∈ idx, ∀ q ∈ e.2, q.1 < i + 1) →
      (∀ e ∈ idx, e.1 ∈ tokSet → ∀ q ∈ e.2, q.1 < i) →
      (∀ tok ∈ tokSet, 1 ≤ toks.count tok) →
      IndexInv (tokSet.foldl (fun a tok => appendPosting a tok (i, toks.count tok)) idx) ∧
        (∀ e ∈ tokSet.foldl (fun a tok => appendPosting a tok (i, toks.count tok)) idx,
          ∀ q ∈ e.2, q.1 < i + 1) := by
  intro tokSet
  induction tokSet with
  | nil =>
    intro idx _ hinv hbnd _ _
    exact ⟨hinv, hbnd⟩
  | cons tok rest ih =>
    intro idx hnd hinv hbnd hrem hcnt
    have hstep := appendPosting_step idx tok i (toks.count tok) rest
      (List.nodup_cons.mp hnd).1 (hcnt tok (List.mem_cons_self _ _)) hinv hbnd
      (fun e he hor => hrem e he (by
        rcases hor with h | h
        · exact h ▸ List.mem_cons_self _ _
        · exact List.mem_cons_of_mem _ h))
    show IndexInv (rest.foldl (fun a tok => appendPosting a tok (i, toks.count tok))
        (appendPosting idx tok (i, toks.count tok))) ∧ _
    exact ih (appendPosting idx tok (i, toks.count tok)) (List.nodup_cons.mp hnd).2
      hstep.1 hstep.2.1 hstep.2.2 (fun t ht => hcnt t (List.mem_cons_of_mem _ ht))

theorem addDocPostings_inv (i : ℕ) (doc_tokenized : List String) (idx : Index)
    (hinv : IndexInv idx) (hbnd : ∀ e ∈ idx, ∀ q ∈ e.2, q.1 < i) :
    IndexInv (addDocPostings i doc_tokenized idx) ∧
      ∀ e ∈ addDocPostings i doc_tokenized idx, ∀ q ∈ e.2, q.1 < i + 1 := by
  apply addDoc_fold_inv i doc_tokenized doc_tokenized.dedup idx
    (List.nodup_dedup doc_tokenized) hinv
  · exact fun e he q hq => Nat.lt_succ_of_lt (hbnd e he q hq)
  · exact fun e he _ q hq => hbnd e he q hq
  · exact fun tok ht => List.count_pos_iff.mpr (List.mem_dedup.mp ht)

theorem build_token_go_inv (dict : List (String × ℕ)) :
    ∀ (docs : List String) (i : ℕ) (idx : Index),
      (∀ j (hj : j < docs.length), alookup dict (docs.get ⟨j, hj⟩) = some (i + j)) →
      IndexInv idx → (∀ e ∈ idx, ∀ q ∈ e.2, q.1 < i) →
      ∀ out, build_token_go dict docs idx = some out → IndexInv out := by
  intro docs
  induction docs with
  | nil =>
    intro i idx _ hinv _ out hout
    cases hout
    exact hinv
  | cons doc rest ih =>
    intro i idx hdict hinv hbnd out hout
    have h0 : alookup dict doc = some i := by
      have := hdict 0 (by simp)
      simpa using this
    rw [build_token_go, h0] at hout
    have hstep := addDocPostings_inv i (tokenize doc) idx hinv hbnd
    apply ih (i + 1) (addDocPostings i (tokenize doc) idx) _ hstep.1 hstep.2 out hout
    intro j hj
    have := hdict (j + 1) (by simpa using Nat.succ_lt_succ hj)
    simp only [List.get_cons_succ] at this
    rw [this]
    congr 1
    omega

/-- C3 (amended): for a collection of pairwise-distinct document texts, every
posting list of `build_token_inverted_index_with_freq` composed with
`build_doc_inverted_index` has strictly ascending document ids (hence at most
one entry per document id) and every listed term frequency is at least 1.  For
collections with duplicate texts the sortedness and uniqueness fail (see the
counterexample). -/
theorem build_token_inverted_index_with_freq_invariants (doc_lst : List String)
    (hnd : doc_lst.Nodup) (idx : Index)
    (hbuild : build_token_inverted_index_with_freq doc_lst
      (build_doc_inverted_index doc_lst) = some idx) :
    IndexInv idx := by
  apply build_token_go_inv (build_doc_inverted_index doc_lst) doc_lst 0 [] _
    (fun e he => absurd he (List.not_mem_nil e))
    (fun e he => absurd he (List.not_mem_nil e)) idx hbuild
  intro j hj
  rw [Nat.zero_add]
  apply alookup_build_doc_of_last doc_lst j hj
  intro j' hj' hgt he
  have h2 : j' = j := congrArg Fin.val ((List.Nodup.get_inj_iff hnd).mp he)
  omega

/-- Witness for C3 (amended): the duplicate-free collection ["a b", "b c"]
builds an index whose posting lists are strictly ascending with frequencies 1. -/
theorem build_token_inverted_index_with_freq_invariants_witness :
    IndexInv [(("a"), [(0, 1)]), (("b"), [(0, 1), (1, 1)]), (("c"), [(1, 1)])] :=
  build_token_inverted_index_with_freq_invariants [("a b"), ("b c")] (by decide)
    [(("a"), [(0, 1)]), (("b"), [(0, 1), (1, 1)]), (("c"), [(1, 1)])] (by decide)

/-- Counterexample to C3 as stated: with the duplicate-text collection
["t", "t u", "t"] the posting list of term "t" is [(2, 1), (1, 1), (2, 1)] -
neither sorted by ascending document id nor free of duplicate document ids. -/
theorem build_token_inverted_index_unsorted_on_duplicates :
    build_token_inverted_index_with_freq [("t"), ("t u"), ("t")]
        (build_doc_inverted_index [("t"), ("t u"), ("t")]) =
      some [(("t"), [(2, 1), (1, 1), (2, 1)]), (("u"), [(1, 1)])] ∧
      ¬ (([(2, 1), (1, 1), (2, 1)] : List (ℕ × ℕ)).map Prod.fst).Pairwise (· < ·) := by
  constructor
  · decide
  · decide

/-! ### Supporting lemmas: score accumulation -/

theorem scoreOf_cons (d0 : ℕ) (x : ℚ) (rest : List (ℕ × ℚ)) (d : ℕ) :
    scoreOf ((d0, x) :: rest) d = if d0 = d then x else scoreOf rest d := by
  have ha : alookup ((d0, x) :: rest) d = if d0 = d then some x else alookup rest d := rfl
  unfold scoreOf
  rw [ha]
  by_cases h : d0 = d <;> simp [h]

theorem scoreOf_updateScore (sc : List (ℕ × ℚ)) (doc : ℕ) (v : ℚ) (d : ℕ) :
    scoreOf (updateScore sc doc v) d = scoreOf sc d + if doc = d then v else 0 := by
  induction sc with
  | nil =>
    show scoreOf [(doc, v)] d = scoreOf [] d + _
    rw [scoreOf_cons]
    by_cases h : doc = d
    · simp [h, scoreOf, alookup]
    · simp [h, scoreOf, alookup]
  | cons e rest ih =>
    obtain ⟨d0, s0⟩ := e
    have hu : updateScore ((d0, s0) :: rest) doc v =
        if d0 = doc then (d0, s0 + v) :: rest else (d0, s0) :: updateScore rest doc v := rfl
    rw [hu]
    by_cases h0 : d0 = doc
    · rw [if_pos h0, scoreOf_cons, scoreOf_cons]
      by_cases hd : d0 = d
      · rw [if_pos hd, if_pos hd, if_pos (h0.symm.trans hd)]
      · rw [if_neg hd, if_neg hd, if_neg (fun hh => hd (h0.trans hh)), add_zero]
    · rw [if_neg h0, scoreOf_cons, scoreOf_cons]
      by_cases hd : d0 = d
      · rw [if_pos hd, if_pos hd, if_neg (fun hh => h0 (hd.trans hh.symm)), add_zero]
      · rw [if_neg hd, if_neg hd]
        exact ih

theorem mem_keys_updateScore (sc : List (ℕ × ℚ)) (doc : ℕ) (v : ℚ) (d : ℕ) :
    d ∈ (updateScore sc doc v).map Prod.fst ↔ d ∈ sc.map Prod.fst ∨ d = doc := by
  induction sc with
  | nil => simp [updateScore]
  | cons e rest ih =>
    obtain ⟨d0, s0⟩ := e
    have hu : updateScore ((d0, s0) :: rest) doc v =
        if d0 = doc then (d0, s0 + v) :: rest else (d0, s0) :: updateScore rest doc v := rfl
    rw [hu]
    by_cases h0 : d0 = doc
    · rw [if_pos h0]
      subst h0
      simp only [List.map_cons, List.mem_cons]
      tauto
    · rw [if_neg h0]
      simp only [List.map_cons, List.mem_cons, ih]
      tauto

theorem nodup_keys_updateScore (sc : List (ℕ × ℚ)) (doc : ℕ) (v : ℚ)
    (h : (sc.map Prod.fst).Nodup) : ((updateScore sc doc v).map Prod.fst).Nodup := by
  induction sc with
  | nil => simp [updateScore]
  | cons e rest ih =>
    obtain ⟨d0, s0⟩ := e
    have hu : updateScore ((d0, s0) :: rest) doc v =
        if d0 = doc then (d0, s0 + v) :: rest else (d0, s0) :: updateScore rest doc v := rfl
    rw [hu]
    simp only [List.map_cons, List.nodup_cons] at h
    by_cases h0 : d0 = doc
    · rw [if_pos h0]
      simp only [List.map_cons, List.nodup_cons]
      exact h
    · rw [if_neg h0]
      simp only [List.map_cons, List.nodup_cons]
      refine ⟨?_, ih h.2⟩
      intro hmem
      rcases (mem_keys_updateScore rest doc v d0).mp hmem with hm | he
      · exact h.1 hm
      · exact h0 he

theorem scoreOf_accumPostings (qc : ℕ) (iv : ℚ) (ps : List (ℕ × ℕ)) (d : ℕ) :
    ∀ sc, scoreOf (accumPostings qc iv ps sc) d =
      scoreOf sc d + ((ps.filter (fun p => p.1 = d)).map
        (fun p => (p.2 : ℚ) * (qc : ℚ) * iv ^ 2)).sum := by
  induction ps with
  | nil =>
    intro sc
    simp [accumPostings]
  | cons p rest ih =>
    intro sc
    obtain ⟨pd, ptf⟩ := p
    show scoreOf (accumPostings qc iv rest
      (updateScore sc pd ((ptf : ℚ) * (qc : ℚ) * iv ^ 2))) d = _
    rw [ih, scoreOf_updateScore]
    by_cases hd : pd = d
    · rw [if_pos hd]
      have hf : (((pd, ptf) :: rest).filter (fun p => p.1 = d)) =
          (pd, ptf) :: rest.filter (fun p => p.1 = d) := by
        simp [List.filter_cons, hd]
      rw [hf, List.map_cons, List.sum_cons]
      ring
    · rw [if_neg hd, add_zero]
      have hf : (((pd, ptf) :: rest).filter (fun p => p.1 = d)) =
          rest.filter (fun p => p.1 = d) := by
        simp [List.filter_cons, hd]
      rw [hf]

theorem mem_keys_accumPostings (qc : ℕ) (iv : ℚ) (ps : List (ℕ × ℕ)) (d : ℕ) :
    ∀ sc, d ∈ (accumPostings qc iv ps sc).map Prod.fst ↔
      d ∈ sc.map Prod.fst ∨ ∃ tf, (d, tf) ∈ ps := by
  induction ps with
  | nil =>
    intro sc
    simp [accumPostings]
  | cons p rest ih =>
    intro sc
    obtain ⟨pd, ptf⟩ := p
    show d ∈ (accumPostings qc iv rest (updateScore sc pd _)).map Prod.fst ↔ _
    rw [ih, mem_keys_updateScore]
    constructor
    · rintro ((hm | he) | ⟨tf, htf⟩)
      · exact Or.inl hm
      · exact Or.inr ⟨ptf, he ▸ List.mem_cons_self _ _⟩
      · exact Or.inr ⟨tf, List.mem_cons_of_mem _ htf⟩
    · rintro (hm | ⟨tf, htf⟩)
      · exact Or.inl (Or.inl hm)
      · rcases List.mem_cons.mp htf with he | hr
        · exact Or.inl (Or.inr (Prod.ext_iff.mp he).1)
        · exact Or.inr ⟨tf, hr⟩

theorem nodup_keys_accumPostings (qc : ℕ) (iv : ℚ) (ps : List (ℕ × ℕ)) :
    ∀ sc, (sc.map Prod.fst).Nodup → ((accumPostings qc iv ps sc).map Prod.fst).Nodup := by
  induction ps with
  | nil =>
    intro sc h
    exact h
  | cons p rest ih =>
    intro sc h
    exact ih _ (nodup_keys_updateScore _ _ _ h)

theorem dotScore_append (q : List (String × ℕ)) (idf : List (String × ℚ))
    (l1 l2 : Index) (d : ℕ) :
    dotScore q idf (l1 ++ l2) d = dotScore q idf l1 d + dotScore q idf l2 d := by
  simp [dotScore]

theorem dotScore_cons_qnone (q : List (String × ℕ)) (idf : List (String × ℚ))
    (w : String) (ps : List (ℕ × ℕ)) (rest : Index) (d : ℕ)
    (hq : alookup q w = none) :
    dotScore q idf ((w, ps) :: rest) d = dotScore q idf rest d := by
  simp [dotScore, hq]

theorem dotScore_cons_inone (q : List (String × ℕ)) (idf : List (String × ℚ))
    (w : String) (ps : List (ℕ × ℕ)) (rest : Index) (d : ℕ)
    (hif : alookup idf w = none) :
    dotScore q idf ((w, ps) :: rest) d = dotScore q idf rest d := by
  cases hq : alookup q w <;> simp [dotScore, hq, hif]

theorem dotScore_cons_some (q : List (String × ℕ)) (idf : List (String × ℚ))
    (w : String) (ps : List (ℕ × ℕ)) (rest : Index) (d : ℕ) (qc : ℕ) (iv : ℚ)
    (hq : alookup q w = some qc) (hif : alookup idf w = some iv) :
    dotScore q idf ((w, ps) :: rest) d =
      ((ps.filter (fun p => p.1 = d)).map (fun p => (p.2 : ℚ) * (qc : ℚ) * iv ^ 2)).sum +
        dotScore q idf rest d := by
  simp [dotScore, hq, hif]

theorem accumulate_go_scoreOf (q : List (String × ℕ)) (idf : List (String × ℚ)) (d : ℕ) :
    ∀ (entries : Index) (sc out : List (ℕ × ℚ)),
      accumulate_go q idf entries sc = some out →
      scoreOf out d = scoreOf sc d + dotScore q idf entries d := by
  intro entries
  induction entries with
  | nil =>
    intro sc out h
    injection h with h
    subst h
    simp [dotScore]
  | cons e rest ih =>
    obtain ⟨word, word_docs⟩ := e
    intro sc out h
    cases hq : alookup q word with
    | none =>
      simp only [accumulate_go, hq] at h
      rw [dotScore_cons_qnone q idf word word_docs rest d hq]
      exact ih sc out h
    | some qc =>
      cases word_docs with
      | nil =>
        simp only [accumulate_go, hq] at h
        cases hif : alookup idf word with
        | none =>
          rw [dotScore_cons_inone q idf word [] rest d hif]
          exact ih sc out h
        | some iv =>
          rw [dotScore_cons_some q idf word [] rest d qc iv hq hif]
          simp only [List.filter_nil, List.map_nil, List.sum_nil, zero_add]
          exact ih sc out h
      | cons wd wds =>
        cases hif : alookup idf word with
        | none =>
          simp only [accumulate_go, hq, hif] at h
          cases h
        | some iv =>
          simp only [accumulate_go, hq, hif] at h
          rw [dotScore_cons_some q idf word (wd :: wds) rest d qc iv hq hif,
            ih _ out h, scoreOf_accumPostings]
          ring

theorem accumulate_go_keys (q : List (String × ℕ)) (idf : List (String × ℚ)) (d : ℕ) :
    ∀ (entries : Index) (sc out : List (ℕ × ℚ)),
      accumulate_go q idf entries sc = some out →
      (d ∈ out.map Prod.fst ↔ d ∈ sc.map Prod.fst ∨
        ∃ w ps tf, (w, ps) ∈ entries ∧ (alookup q w).isSome ∧ (d, tf) ∈ ps) := by
  intro entries
  induction entries with
  | nil =>
    intro sc out h
    injection h with h
    subst h
    simp
  | cons e rest ih =>
    obtain ⟨word, word_docs⟩ := e
    intro sc out h
    cases hq : alookup q word with
    | none =>
      simp only [accumulate_go, hq] at h
      rw [ih sc out h]
      constructor
      · rintro (hm | ⟨w, ps, tf, hmem, hsome, hpost⟩)
        · exact Or.inl hm
        · exact Or.inr ⟨w, ps, tf, List.mem_cons_of_mem _ hmem, hsome, hpost⟩
      · rintro (hm | ⟨w, ps, tf, hmem, hsome, hpost⟩)
        · exact Or.inl hm
        · rcases List.mem_cons.mp hmem with he | hr
          · have hw : w = word := (Prod.ext_iff.mp he).1
            rw [hw, hq] at hsome
            exact absurd hsome (by simp)
          · exact Or.inr ⟨w, ps, tf, hr, hsome, hpost⟩
    | some qc =>
      cases word_docs with
      | nil =>
        simp only [accumulate_go, hq] at h
        rw [ih sc out h]
        constructor
        · rintro (hm | ⟨w, ps, tf, hmem, hsome, hpost⟩)
          · exact Or.inl hm
          · exact Or.inr ⟨w, ps, tf, List.mem_cons_of_mem _ hmem, hsome, hpost⟩
        · rintro (hm | ⟨w, ps, tf, hmem, hsome, hpost⟩)
          · exact Or.inl hm
          · rcases List.mem_cons.mp hmem with he | hr
            · have hps : ps = [] := (Prod.ext_iff.mp he).2
              rw [hps] at hpost
              exact absurd hpost (List.not_mem_nil _)
            · exact Or.inr ⟨w, ps, tf, hr, hsome, hpost⟩
      | cons wd wds =>
        cases hif : alookup idf word with
        | none =>
          simp only [accumulate_go, hq, hif] at h
          cases h
        | some iv =>
          simp only [accumulate_go, hq, hif] at h
          rw [ih _ out h, mem_keys_accumPostings]
          constructor
          · rintro ((hm | ⟨tf, htf⟩) | ⟨w, ps, tf, hmem, hsome, hpost⟩)
            · exact Or.inl hm
            · exact Or.inr ⟨word, wd :: wds, tf, List.mem_cons_self _ _, by simp [hq], htf⟩
            · exact Or.inr ⟨w, ps, tf, List.mem_cons_of_mem _ hmem, hsome, hpost⟩
          · rintro (hm | ⟨w, ps, tf, hmem, hsome, hpost⟩)
            · exact Or.inl (Or.inl hm)
            · rcases List.mem_cons.mp hmem with he | hr
              · have hps : ps = wd :: wds := congrArg Prod.snd he
                exact Or.inl (Or.inr ⟨tf, hps ▸ hpost⟩)
              · exact Or.inr ⟨w, ps, tf, hr, hsome, hpost⟩

theorem accumulate_go_keys_nodup (q : List (String × ℕ)) (idf : List (String × ℚ)) :
    ∀ (entries : Index) (sc out : List (ℕ × ℚ)),
      accumulate_go q idf entries sc = some out →
      (sc.map Prod.fst).Nodup → (out.map Prod.fst).Nodup := by
  intro entries
  induction entries with
  | nil =>
    intro sc out h hnd
    injection h with h
    subst h
    exact hnd
  | cons e rest ih =>
    obtain ⟨word, word_docs⟩ := e
    intro sc out h hnd
    cases hq : alookup q word with
    | none =>
      simp only [accumulate_go, hq] at h
      exact ih sc out h hnd
    | some qc =>
      cases word_docs with
      | nil =>
        simp only [accumulate_go, hq] at h
        exact ih sc out h hnd
      | cons wd wds =>
        cases hif : alookup idf word with
        | none =>
          simp only [accumulate_go, hq, hif] at h
          cases h
        | some iv =>
          simp only [accumulate_go, hq, hif] at h
          exact ih _ out h (nodup_keys_accumPostings _ _ _ _ hnd)

theorem accumulate_go_some (q : List (String × ℕ)) (idf : List (String × ℚ)) :
    ∀ (entries : Index) (sc : List (ℕ × ℚ)),
      (∀ w ps, (w, ps) ∈ entries → (alookup q w).isSome → (alookup idf w).isSome) →
      ∃ out, accumulate_go q idf entries sc = some out := by
  intro entries
  induction entries with
  | nil =>
    intro sc _
    exact ⟨sc, rfl⟩
  | cons e rest ih =>
    obtain ⟨word, word_docs⟩ := e
    intro sc hcov
    have hcov' : ∀ w ps, (w, ps) ∈ rest → (alookup q w).isSome → (alookup idf w).isSome :=
      fun w ps hm => hcov w ps (List.mem_cons_of_mem _ hm)
    cases hq : alookup q word with
    | none =>
      obtain ⟨out, hout⟩ := ih sc hcov'
      exact ⟨out, by simp only [accumulate_go, hq]; exact hout⟩
    | some qc =>
      cases word_docs with
      | nil =>
        obtain ⟨out, hout⟩ := ih sc hcov'
        exact ⟨out, by simp only [accumulate_go, hq]; exact hout⟩
      | cons wd wds =>
        have hsome : (alookup idf word).isSome :=
          hcov word (wd :: wds) (List.mem_cons_self _ _) (by simp [hq])
        obtain ⟨iv, hif⟩ := Option.isSome_iff_exists.mp hsome
        obtain ⟨out, hout⟩ := ih (accumPostings qc iv (wd :: wds) sc) hcov'
        exact ⟨out, by simp only [accumulate_go, hq, hif]; exact hout⟩

theorem accumulate_go_nil_query (idf : List (String × ℚ)) :
    ∀ (entries : Index) (sc : List (ℕ × ℚ)), accumulate_go [] idf entries sc = some sc := by
  intro entries
  induction entries with
  | nil =>
    intro sc
    rfl
  | cons e rest ih =>
    obtain ⟨word, word_docs⟩ := e
    intro sc
    have hq : alookup ([] : List (String × ℕ)) word = none := rfl
    simp only [accumulate_go, hq]
    exact ih sc

theorem rankResults_map_snd (f : ℚ) (doc_norms : List ℚ) :
    ∀ (nv : List (ℕ × ℚ)) (rs : List (ℚ × ℕ)), rankResults f doc_norms nv = some rs →
      rs.map Prod.snd = nv.map Prod.fst := by
  intro nv
  induction nv with
  | nil =>
    intro rs h
    injection h with h
    subst h
    rfl
  | cons p rest ih =>
    obtain ⟨doc, s⟩ := p
    intro rs h
    simp only [rankResults] at h
    cases hget : doc_norms.get? doc with
    | none =>
      simp only [hget] at h
      cases h
    | some dn =>
      simp only [hget] at h
      by_cases hz : f * dn = 0
      · rw [if_pos hz] at h
        cases h
      · rw [if_neg hz] at h
        cases hrec : rankResults f doc_norms rest with
        | none =>
          simp only [hrec] at h
          cases h
        | some rs' =>
          simp only [hrec] at h
          injection h with h
          subst h
          simp [ih rs' hrec]

/-- C8: with all other inputs unchanged (same query counts, same idf table, same
surrounding index), raising by one the stored term frequency of one posting
(d, tf) of a term w that already lists document d never decreases document d's
accumulated dot-product score whenever `accumulate_dot_scores` succeeds on both
indexes. -/
theorem accumulate_dot_scores_monotone (q : List (String × ℕ)) (idf : List (String × ℚ))
    (pre post : Index) (w : String) (ps1 ps2 : List (ℕ × ℕ)) (d tf : ℕ)
    (s s' : List (ℕ × ℚ))
    (h : accumulate_dot_scores q (pre ++ (w, ps1 ++ (d, tf) :: ps2) :: post) idf = some s)
    (h' : accumulate_dot_scores q (pre ++ (w, ps1 ++ (d, tf + 1) :: ps2) :: post) idf = some s') :
    scoreOf s d ≤ scoreOf s' d := by
  have e1 := accumulate_go_scoreOf q idf d _ [] s h
  have e2 := accumulate_go_scoreOf q idf d _ [] s' h'
  rw [e1, e2, dotScore_append, dotScore_append]
  have key : dotScore q idf ((w, ps1 ++ (d, tf) :: ps2) :: post) d ≤
      dotScore q idf ((w, ps1 ++ (d, tf + 1) :: ps2) :: post) d := by
    cases hq : alookup q w with
    | none =>
      rw [dotScore_cons_qnone _ _ _ _ _ _ hq, dotScore_cons_qnone _ _ _ _ _ _ hq]
    | some qc =>
      cases hif : alookup idf w with
      | none =>
        rw [dotScore_cons_inone _ _ _ _ _ _ hif, dotScore_cons_inone _ _ _ _ _ _ hif]
      | some iv =>
        rw [dotScore_cons_some _ _ _ _ _ _ _ _ hq hif,
          dotScore_cons_some _ _ _ _ _ _ _ _ hq hif]
        have hfil : ∀ t : ℕ, ((ps1 ++ (d, t) :: ps2).filter (fun p => p.1 = d)) =
            ps1.filter (fun p => p.1 = d) ++ (d, t) :: ps2.filter (fun p => p.1 = d) := by
          intro t
          rw [List.filter_append, List.filter_cons]
          simp
        rw [hfil, hfil, List.map_append, List.map_append, List.sum_append, List.sum_append,
          List.map_cons, List.map_cons, List.sum_cons, List.sum_cons]
        have hX : (0 : ℚ) ≤ (qc : ℚ) * iv ^ 2 :=
          mul_nonneg (Nat.cast_nonneg qc) (sq_nonneg iv)
        push_cast
        nlinarith [hX]
  linarith [key]

/-- Witness for C8: query {cat: 2}, idf {cat: 3}; raising the posting (0, 1) to
(0, 2) raises document 0's score from 18 to 36. -/
theorem accumulate_dot_scores_monotone_witness :
    scoreOf [((0 : ℕ), (18 : ℚ))] 0 ≤ scoreOf [((0 : ℕ), (36 : ℚ))] 0 :=
  accumulate_dot_scores_monotone [(("cat"), 2)] [(("cat"), 3)] [] [] ("cat") [] [] 0 1
    [((0 : ℕ), (18 : ℚ))] [((0 : ℕ), (36 : ℚ))]
    (by norm_num [accumulate_dot_scores, accumulate_go, alookup, accumPostings, updateScore])
    (by norm_num [accumulate_dot_scores, accumulate_go, alookup, accumPostings, updateScore])

/-- C10: whenever the scorer succeeds, the returned mapping has each document at
most once as a key, its keys are exactly the documents that share at least one
term with the query according to the index, and `index_search` consequently only
ranks documents sharing a token with the query. -/
theorem accumulate_dot_scores_keys_exact (query : String) (index : Index)
    (idf : List (String × ℚ)) (s : List (ℕ × ℚ))
    (h : accumulate_dot_scores (word_counts query) index idf = some s) :
    (s.map Prod.fst).Nodup ∧
      (∀ d, d ∈ s.map Prod.fst ↔ SharesTerm (word_counts query) index d) ∧
      (∀ sqrt doc_norms results,
        index_search sqrt query index idf doc_norms = some results →
        ∀ d ∈ results.map Prod.snd, SharesTerm (word_counts query) index d) := by
  refine ⟨?_, ?_, ?_⟩
  · exact accumulate_go_keys_nodup _ idf index [] s h (by simp)
  · intro d
    rw [accumulate_go_keys _ idf d index [] s h]
    simp [SharesTerm]
  · intro sqrt doc_norms results hres d hd
    have hq : counterOf (tokenize query.toLower) = word_counts query := by
      rw [tokenize_toLower]
      rfl
    simp only [index_search] at hres
    rw [hq] at hres
    simp only [h] at hres
    cases hrr : rankResults (sqrt (query_norm_m idf (tokenize query.toLower)))
        doc_norms s with
    | none =>
      simp only [hrr] at hres
      cases hres
    | some rs =>
      simp only [hrr] at hres
      injection hres with hres
      subst hres
      have hmem : d ∈ s.map Prod.fst := by
        have hperm := (List.perm_insertionSort scoreGE rs).map Prod.snd
        have hin : d ∈ rs.map Prod.snd := hperm.mem_iff.mp hd
        rw [rankResults_map_snd _ _ s rs hrr] at hin
        exact hin
      have hch := (accumulate_go_keys (word_counts query) idf d index [] s h).mp hmem
      rcases hch with hfalse | hst
      · simp at hfalse
      · exact hst

/-- Witness for C10: on query "cat" with index {cat: [(0, 1)]} and idf {cat: 1},
the scorer returns exactly {0: 1} and the characterization holds. -/
theorem accumulate_dot_scores_keys_exact_witness :
    (([((0 : ℕ), (1 : ℚ))]).map Prod.fst).Nodup ∧
      (∀ d, d ∈ ([((0 : ℕ), (1 : ℚ))]).map Prod.fst ↔
        SharesTerm (word_counts ("cat")) [(("cat"), [(0, 1)])] d) ∧
      (∀ sqrt doc_norms results,
        index_search sqrt ("cat") [(("cat"), [(0, 1)])] [(("cat"), 1)] doc_norms =
          some results →
        ∀ d ∈ results.map Prod.snd, SharesTerm (word_counts ("cat")) [(("cat"), [(0, 1)])] d) :=
  accumulate_dot_scores_keys_exact ("cat") [(("cat"), [(0, 1)])] [(("cat"), 1)]
    [((0 : ℕ), (1 : ℚ))]
    (by
      have hwc : word_counts ("cat") = [(("cat"), 1)] := by decide
      rw [hwc]
      norm_num [accumulate_dot_scores, accumulate_go, alookup, accumPostings,
        updateScore])

/-- C6: for a query whose tokenization yields zero tokens, `boolean_search`
returns the full document universe 0..n-1 (vacuous AND) and `index_search`
returns the empty ranking. -/
theorem empty_query_degrades (query : String) (bidx : List (String × List ℕ)) (n : ℕ)
    (sqrt : ℚ → ℚ) (index : Index) (idf : List (String × ℚ)) (doc_norms : List ℚ)
    (htok : tokenize query = []) :
    boolean_search query bidx n = List.range n ∧
      index_search sqrt query index idf doc_norms = some [] := by
  constructor
  · rw [boolean_search, htok]
    show (Finset.range n).sort (· ≤ ·) = List.range n
    exact Finset.sort_range n
  · have htok' : tokenize query.toLower = [] := by rw [tokenize_toLower, htok]
    simp only [index_search, htok']
    have hc : counterOf ([] : List String) = [] := rfl
    rw [hc]
    have hacc : accumulate_dot_scores [] index idf = some [] :=
      accumulate_go_nil_query idf index []
    simp only [hacc]
    have hrank : rankResults (sqrt (query_norm_m idf [])) doc_norms [] = some [] := rfl
    simp only [hrank]
    rfl

/-- Witness for C6: the query "123 !?" has no tokens; boolean search returns
[0, 1] and cosine search returns the empty ranking. -/
theorem empty_query_degrades_witness :
    boolean_search ("123 !?") [(("a"), [0])] 2 = List.range 2 ∧
      index_search (fun q => q) ("123 !?") [(("a"), [(0, 1)])] [(("a"), 1)] [1] = some [] :=
  empty_query_degrades ("123 !?") [(("a"), [0])] 2 (fun q => q) [(("a"), [(0, 1)])]
    [(("a"), 1)] [1] (by decide)

theorem boolean_go_bounds (idx : List (String × List ℕ)) (n : ℕ) :
    ∀ (toks : List String) (s : Finset ℕ), s ⊆ Finset.range n →
      (boolean_go idx toks s).length ≤ n ∧ ∀ d ∈ boolean_go idx toks s, d < n := by
  intro toks
  induction toks with
  | nil =>
    intro s hs
    constructor
    · show (s.sort (· ≤ ·)).length ≤ n
      rw [Finset.length_sort]
      calc s.card ≤ (Finset.range n).card := Finset.card_le_card hs
        _ = n := Finset.card_range n
    · intro d hd
      have hds : d ∈ s := (Finset.mem_sort (α := ℕ) (· ≤ ·)).mp hd
      exact Finset.mem_range.mp (hs hds)
  | cons tok rest ih =>
    intro s hs
    simp only [boolean_go]
    cases halo : alookup idx tok with
    | none =>
      constructor
      · exact Nat.zero_le n
      · intro d hd
        exact absurd hd (List.not_mem_nil d)
    | some ds =>
      exact ih (s ∩ ds.toFinset) (subset_trans Finset.inter_subset_left hs)

/-- C7: the result of `boolean_search` never has more than `num_docs` entries and
every returned document id lies in [0, num_docs). -/
theorem boolean_search_bounds (query : String) (token_inv_idx : List (String × List ℕ))
    (num_docs : ℕ) :
    (boolean_search query token_inv_idx num_docs).length ≤ num_docs ∧
      ∀ d ∈ boolean_search query token_inv_idx num_docs, d < num_docs :=
  boolean_go_bounds token_inv_idx num_docs (tokenize query) (Finset.range num_docs)
    (subset_refl _)

/-- Witness for C7 at a concrete query, index and document count. -/
theorem boolean_search_bounds_witness :
    (boolean_search ("cat") [(("cat"), [0, 2])] 3).length ≤ 3 ∧
      ∀ d ∈ boolean_search ("cat") [(("cat"), [0, 2])] 3, d < 3 :=
  boolean_search_bounds ("cat") [(("cat"), [0, 2])] 3

theorem rankResults_eq_map (f : ℚ) (doc_norms : List ℚ) :
    ∀ (nv : List (ℕ × ℚ)),
      (∀ p ∈ nv, ∃ dn, doc_norms.get? p.1 = some dn ∧ f * dn ≠ 0) →
      rankResults f doc_norms nv =
        some (nv.map (fun p => (p.2 / (f * (doc_norms.get? p.1).getD 0), p.1))) := by
  intro nv
  induction nv with
  | nil =>
    intro _
    rfl
  | cons p rest ih =>
    intro hden
    obtain ⟨doc, s⟩ := p
    obtain ⟨dn, hget, hne⟩ := hden (doc, s) (List.mem_cons_self _ _)
    simp only at hget
    simp only [rankResults, List.map_cons, hget, if_neg hne,
      ih (fun q hq => hden q (List.mem_cons_of_mem _ hq))]
    rfl

/-- C2 (amended): when every query term occurring in the index is present in the
IDF table and every scored document has an in-range norm giving a nonzero
denominator, `index_search` succeeds and returns exactly the documents the
scorer assigns a score to (those with at least one posting for a query term,
including documents whose dot-product numerator is zero), each scored as
numerator / (sqrt(query_norm_m) * doc_norms[doc]) with query_norm_m the
per-token-occurrence sum of (idf[t] * freq[t])^2, sorted by descending score. -/
theorem index_search_ranking (sqrt : ℚ → ℚ) (query : String) (index : Index)
    (idf : List (String × ℚ)) (doc_norms : List ℚ)
    (hcov : ∀ w ps, (w, ps) ∈ index → (alookup (word_counts query) w).isSome →
      (alookup idf w).isSome)
    (hden : ∀ d, SharesTerm (word_counts query) index d →
      ∃ dn, doc_norms.get? d = some dn ∧
        sqrt (query_norm_m idf (tokenize query)) * dn ≠ 0) :
    ∃ num_vals results,
      accumulate_dot_scores (word_counts query) index idf = some num_vals ∧
      index_search sqrt query index idf doc_norms = some results ∧
      results.Perm (num_vals.map (fun p =>
        (p.2 / (sqrt (query_norm_m idf (tokenize query)) * (doc_norms.get? p.1).getD 0),
          p.1))) ∧
      results.Sorted scoreGE := by
  obtain ⟨nv, hacc⟩ := accumulate_go_some (word_counts query) idf index [] hcov
  have hmem : ∀ p ∈ nv, ∃ dn, doc_norms.get? p.1 = some dn ∧
      sqrt (query_norm_m idf (tokenize query)) * dn ≠ 0 := by
    intro p hp
    apply hden p.1
    have hk : p.1 ∈ nv.map Prod.fst := List.mem_map_of_mem Prod.fst hp
    have hch := (accumulate_go_keys (word_counts query) idf p.1 index [] nv hacc).mp hk
    rcases hch with hfalse | hst
    · simp at hfalse
    · exact hst
  have hrank := rankResults_eq_map (sqrt (query_norm_m idf (tokenize query))) doc_norms nv hmem
  have hacc' : accumulate_dot_scores (word_counts query) index idf = some nv := hacc
  refine ⟨nv, List.insertionSort scoreGE (nv.map (fun p =>
      (p.2 / (sqrt (query_norm_m idf (tokenize query)) * (doc_norms.get? p.1).getD 0), p.1))),
    hacc', ?_, List.perm_insertionSort _ _, List.sorted_insertionSort _ _⟩
  simp only [index_search, tokenize_toLower]
  have hq2 : counterOf (tokenize query) = word_counts query := rfl
  rw [hq2]
  simp only [hacc', hrank]

/-- Witness for C2 (amended) at query "cat", index {cat: [(0, 1)]}, idf {cat: 1},
doc_norms [1] and the identity as sqrt (the query norm is 1 = 1^2 there). -/
theorem index_search_ranking_witness :
    ∃ num_vals results,
      accumulate_dot_scores (word_counts ("cat")) [(("cat"), [(0, 1)])] [(("cat"), 1)] =
        some num_vals ∧
      index_search (fun q => q) ("cat") [(("cat"), [(0, 1)])] [(("cat"), 1)] [1] =
        some results ∧
      results.Perm (num_vals.map (fun p =>
        (p.2 / ((fun q : ℚ => q) (query_norm_m [(("cat"), 1)] (tokenize ("cat"))) *
          (([1] : List ℚ).get? p.1).getD 0), p.1))) ∧
      results.Sorted scoreGE :=
  index_search_ranking (fun q => q) ("cat") [(("cat"), [(0, 1)])] [(("cat"), 1)] [1]
    (by
      intro w ps hm hq
      have hw : w = "cat" := congrArg Prod.fst (List.mem_singleton.mp hm)
      subst hw
      decide)
    (by
      intro d hst
      obtain ⟨w, ps, tf, hm, hq, hp⟩ := hst
      have hps : ps = [(0, 1)] := congrArg Prod.snd (List.mem_singleton.mp hm)
      rw [hps] at hp
      have hd : d = 0 := congrArg Prod.fst (List.mem_singleton.mp hp)
      subst hd
      refine ⟨1, rfl, ?_⟩
      have ht : tokenize ("cat") = [("cat")] := by decide
      show (fun q : ℚ => q) (query_norm_m [(("cat"), 1)] (tokenize ("cat"))) * 1 ≠ 0
      rw [ht]
      norm_num [query_norm_m, alookup])

/-- Counterexample to C2 as stated: on query "cat dog" with idf {cat: 0, dog: 1},
document 0's dot-product numerator is 0 (its only shared term has idf 0), all
denominators are nonzero, yet `index_search` still returns document 0 (with
score 0) - it does not return only the documents with a nonzero numerator. -/
theorem index_search_returns_zero_numerator_doc :
    accumulate_dot_scores (word_counts ("cat dog"))
        [(("cat"), [(0, 1)]), (("dog"), [(1, 1)])] [(("cat"), 0), (("dog"), 1)] =
      some [(0, 0), (1, 1)] ∧
      index_search (fun q => q) ("cat dog") [(("cat"), [(0, 1)]), (("dog"), [(1, 1)])]
        [(("cat"), 0), (("dog"), 1)] [1, 1] = some [(1, 1), (0, 0)] := by
  have hwc : word_counts ("cat dog") = [(("cat"), 1), (("dog"), 1)] := by decide
  have ht : tokenize ("cat dog") = [("cat"), ("dog")] := by decide
  have a1 : alookup [(("cat"), (1 : ℕ)), (("dog"), 1)] ("cat") = some 1 := by decide
  have a2 : alookup [(("cat"), (1 : ℕ)), (("dog"), 1)] ("dog") = some 1 := by decide
  have i1 : alookup [(("cat"), (0 : ℚ)), (("dog"), 1)] ("cat") = some 0 := by decide
  have i2 : alookup [(("cat"), (0 : ℚ)), (("dog"), 1)] ("dog") = some 1 := by decide
  have c1 : List.count ("cat") [("cat"), ("dog")] = 1 := by decide
  have c2 : List.count ("dog") [("cat"), ("dog")] = 1 := by decide
  have haccval : accumulate_dot_scores [(("cat"), 1), (("dog"), 1)]
      [(("cat"), [(0, 1)]), (("dog"), [(1, 1)])] [(("cat"), 0), (("dog"), 1)] =
      some [(0, 0), (1, 1)] := by
    norm_num [accumulate_dot_scores, accumulate_go, a1, a2, i1, i2, accumPostings,
      updateScore]
  constructor
  · rw [hwc]
    exact haccval
  · simp only [index_search, tokenize_toLower, ht]
    have hq2 : counterOf [("cat"), ("dog")] = [(("cat"), 1), (("dog"), 1)] := by decide
    rw [hq2]
    simp only [haccval]
    have hqn : query_norm_m [(("cat"), (0 : ℚ)), (("dog"), 1)] [("cat"), ("dog")] = 1 := by
      simp only [query_norm_m, List.map_cons, List.map_nil, i1, i2, c1, c2]
      norm_num
    simp only [hqn]
    have hden0 : ∀ p ∈ [((0 : ℕ), (0 : ℚ)), (1, 1)],
        ∃ dn, ([1, 1] : List ℚ).get? p.1 = some dn ∧ (1 : ℚ) * dn ≠ 0 := by
      intro p hp
      rcases List.mem_cons.mp hp with h1 | h1
      · exact ⟨1, by rw [h1]; rfl, by norm_num⟩
      · have h2 : p = (1, 1) := List.mem_singleton.mp h1
        exact ⟨1, by rw [h2]; rfl, by norm_num⟩
    rw [rankResults_eq_map 1 [1, 1] [((0 : ℕ), (0 : ℚ)), (1, 1)] hden0]
    have gg0 : ((([1, 1] : List ℚ).get? 0).getD 0) = 1 := rfl
    have gg1 : ((([1, 1] : List ℚ).get? 1).getD 0) = 1 := rfl
    have hmap : ([((0 : ℕ), (0 : ℚ)), (1, 1)]).map (fun p =>
        (p.2 / ((1 : ℚ) * (([1, 1] : List ℚ).get? p.1).getD 0), p.1)) =
        [((0 : ℚ), (0 : ℕ)), (1, 1)] := by
      simp only [List.map_cons, List.map_nil, gg0, gg1]
      norm_num
    rw [hmap]
    have hsort : List.insertionSort scoreGE [((0 : ℚ), (0 : ℕ)), (1, 1)] =
        [(1, 1), (0, 0)] := by
      norm_num [List.insertionSort, List.orderedInsert, scoreGE]
    simp only [hsort]

/-- C9: `closest_projects_to_query` returns the indices of the k+1 largest
dot-product scores of the query embedding against the document embeddings, in
descending score order: the result has min(k+1, N) entries, no duplicates, every
entry is a valid document index, scores are descending along the result, and
every document outside the result scores no higher than any returned one. -/
theorem closest_projects_to_query_spec (docs : List (List ℚ)) (q : List ℚ) (k : ℕ) :
    (closest_projects_to_query docs q k).length = min (k + 1) docs.length ∧
      (closest_projects_to_query docs q k).Nodup ∧
      (∀ i ∈ closest_projects_to_query docs q k, i < docs.length) ∧
      (closest_projects_to_query docs q k).Sorted
        (simGE (docs.map (fun row => dotList row q))) ∧
      (∀ i ∈ closest_projects_to_query docs q k, ∀ j, j < docs.length →
        j ∉ closest_projects_to_query docs q k →
        simGE (docs.map (fun row => dotList row q)) i j) := by
  have hdef : closest_projects_to_query docs q k =
      List.take (k + 1) (List.insertionSort (simGE (docs.map (fun row => dotList row q)))
        (List.range (docs.map (fun row => dotList row q)).length)) := rfl
  have hperm := List.perm_insertionSort (simGE (docs.map (fun row => dotList row q)))
    (List.range (docs.map (fun row => dotList row q)).length)
  have hlenS : (List.insertionSort (simGE (docs.map (fun row => dotList row q)))
      (List.range (docs.map (fun row => dotList row q)).length)).length = docs.length := by
    rw [hperm.length_eq, List.length_range, List.length_map]
  have hnodupS := hperm.nodup_iff.mpr (List.nodup_range _)
  have hmemS : ∀ x, x ∈ List.insertionSort (simGE (docs.map (fun row => dotList row q)))
      (List.range (docs.map (fun row => dotList row q)).length) ↔ x < docs.length := by
    intro x
    rw [hperm.mem_iff, List.mem_range, List.length_map]
  have hsorted := List.sorted_insertionSort (simGE (docs.map (fun row => dotList row q)))
    (List.range (docs.map (fun row => dotList row q)).length)
  refine ⟨?_, ?_, ?_, ?_, ?_⟩
  · rw [hdef, List.length_take, hlenS]
  · rw [hdef]
    exact List.Nodup.sublist (List.take_sublist _ _) hnodupS
  · intro i hi
    rw [hdef] at hi
    exact (hmemS i).mp (List.mem_of_mem_take hi)
  · rw [hdef]
    exact List.Pairwise.sublist (List.take_sublist _ _) hsorted
  · intro i hi j hj hnj
    rw [hdef] at hi hnj
    have hjS : j ∈ List.insertionSort (simGE (docs.map (fun row => dotList row q)))
        (List.range (docs.map (fun row => dotList row q)).length) := (hmemS j).mpr hj
    rw [← List.take_append_drop (k + 1)
      (List.insertionSort (simGE (docs.map (fun row => dotList row q)))
        (List.range (docs.map (fun row => dotList row q)).length))] at hjS hsorted
    have hjdrop : j ∈ List.drop (k + 1)
        (List.insertionSort (simGE (docs.map (fun row => dotList row q)))
          (List.range (docs.map (fun row => dotList row q)).length)) := by
      rcases List.mem_append.mp hjS with h | h
      · exact absurd h hnj
      · exact h
    exact (List.pairwise_append.mp hsorted).2.2 i hi j hjdrop

/-- Witness for C9 at docs [[1], [3], [2]], query [1], k = 1: the result is
[1, 2] (scores 3 and 2) and all five properties hold there. -/
theorem closest_projects_to_query_spec_witness :
    (closest_projects_to_query [[1], [3], [2]] [1] 1).length = min 2 3 ∧
      (closest_projects_to_query [[1], [3], [2]] [1] 1).Nodup ∧
      (∀ i ∈ closest_projects_to_query [[1], [3], [2]] [1] 1,
        i < ([[1], [3], [2]] : List (List ℚ)).length) ∧
      (closest_projects_to_query [[1], [3], [2]] [1] 1).Sorted
        (simGE (([[1], [3], [2]] : List (List ℚ)).map (fun row => dotList row [1]))) ∧
      (∀ i ∈ closest_projects_to_query [[1], [3], [2]] [1] 1, ∀ j,
        j < ([[1], [3], [2]] : List (List ℚ)).length →
        j ∉ closest_projects_to_query [[1], [3], [2]] [1] 1 →
        simGE (([[1], [3], [2]] : List (List ℚ)).map (fun row => dotList row [1])) i j) :=
  closest_projects_to_query_spec [[1], [3], [2]] [1] 1

/-! ### Supporting lemmas: the docs3 example -/

theorem compute_idf_idx3 (log2 : ℚ → ℚ) : compute_idf log2 idx3 3 0 1 =
    [(("the"), log2 1), (("cat"), log2 (3 / 2)), (("sat"), log2 1),
     (("dog"), log2 (3 / 2)), (("on"), log2 (3 / 2)), (("mat"), log2 (3 / 2)),
     (("cats"), log2 (3 / 2)), (("and"), log2 (3 / 2)), (("dogs"), log2 (3 / 2))] := by
  simp [compute_idf, idx3, List.filter]
  try norm_num

theorem index_search_docs3_eval (log2 sqrt : ℚ → ℚ)
    (hlog1 : log2 1 = 0) (hc : 0 < log2 (3 / 2))
    (hsq : sqrt ((log2 (3 / 2)) ^ 2) = log2 (3 / 2)) :
    index_search sqrt ("cat") idx3 (compute_idf log2 idx3 3 0 1)
      (compute_doc_norms sqrt idx3 (compute_idf log2 idx3 3 0 1) 3) =
      some [((1 : ℚ), (0 : ℕ))] := by
  rw [compute_idf_idx3 log2, hlog1]
  have ht : tokenize ("cat") = [("cat")] := by decide
  have hcnt : counterOf [("cat")] = [(("cat"), 1)] := by decide
  simp only [index_search, tokenize_toLower, ht, hcnt]
  have hacc : accumulate_dot_scores [(("cat"), 1)] idx3
      [(("the"), 0), (("cat"), log2 (3 / 2)), (("sat"), 0),
       (("dog"), log2 (3 / 2)), (("on"), log2 (3 / 2)), (("mat"), log2 (3 / 2)),
       (("cats"), log2 (3 / 2)), (("and"), log2 (3 / 2)), (("dogs"), log2 (3 / 2))] =
      some [(0, (log2 (3 / 2)) ^ 2)] := by
    simp [accumulate_dot_scores, accumulate_go, alookup, accumPostings, updateScore, idx3]
  have hqn : query_norm_m
      [(("the"), 0), (("cat"), log2 (3 / 2)), (("sat"), 0),
       (("dog"), log2 (3 / 2)), (("on"), log2 (3 / 2)), (("mat"), log2 (3 / 2)),
       (("cats"), log2 (3 / 2)), (("and"), log2 (3 / 2)), (("dogs"), log2 (3 / 2))]
      [("cat")] = (log2 (3 / 2)) ^ 2 := by
    simp [query_norm_m, alookup]
  have hd0 : doc_norm_sum idx3
      [(("the"), 0), (("cat"), log2 (3 / 2)), (("sat"), 0),
       (("dog"), log2 (3 / 2)), (("on"), log2 (3 / 2)), (("mat"), log2 (3 / 2)),
       (("cats"), log2 (3 / 2)), (("and"), log2 (3 / 2)), (("dogs"), log2 (3 / 2))] 0 =
      (log2 (3 / 2)) ^ 2 := by
    simp [doc_norm_sum, alookup, idx3, List.filter]
    try ring
  have hr3 : List.range 3 = [0, 1, 2] := by decide
  have hn0 : (compute_doc_norms sqrt idx3
      [(("the"), 0), (("cat"), log2 (3 / 2)), (("sat"), 0),
       (("dog"), log2 (3 / 2)), (("on"), log2 (3 / 2)), (("mat"), log2 (3 / 2)),
       (("cats"), log2 (3 / 2)), (("and"), log2 (3 / 2)), (("dogs"), log2 (3 / 2))]
      3).get? 0 = some (sqrt ((log2 (3 / 2)) ^ 2)) := by
    simp [compute_doc_norms, hr3, hd0]
  simp only [hacc, hqn]
  have hne : log2 (3 / 2) * log2 (3 / 2) ≠ 0 := by
    intro hz
    nlinarith [hc]
  have hrr : rankResults (sqrt ((log2 (3 / 2)) ^ 2))
      (compute_doc_norms sqrt idx3
        [(("the"), 0), (("cat"), log2 (3 / 2)), (("sat"), 0),
         (("dog"), log2 (3 / 2)), (("on"), log2 (3 / 2)), (("mat"), log2 (3 / 2)),
         (("cats"), log2 (3 / 2)), (("and"), log2 (3 / 2)), (("dogs"), log2 (3 / 2))] 3)
      [(0, (log2 (3 / 2)) ^ 2)] = some [(1, 0)] := by
    simp only [rankResults, hn0, hsq]
    rw [if_neg hne]
    have hdiv : (log2 (3 / 2)) ^ 2 / (log2 (3 / 2) * log2 (3 / 2)) = 1 := by
      rw [show log2 (3 / 2) * log2 (3 / 2) = (log2 (3 / 2)) ^ 2 by ring]
      exact div_self (pow_ne_zero 2 (ne_of_gt hc))
    rw [hdiv]
  simp only [hrr]
  rfl

/-- C5 (amended): for the collection docs3 indexed with min_df = 0 and
max_df_ratio = 1 (idf values parameterized by the base-2 log, which satisfies
log2 1 = 0 and log2 (3/2) > 0, with sqrt correct on the one square it is applied
to), `compute_idf` keeps every term of the index, and `index_search` on the
query "cat" returns exactly [(1, 0)]: document 0 ranked with positive score 1,
while document 2 (whose token "cats" differs from "cat") is assigned no score
and is ABSENT from the ranking, rather than ranked with score 0. -/
theorem index_search_docs3 (log2 sqrt : ℚ → ℚ)
    (hlog1 : log2 1 = 0) (hc : 0 < log2 (3 / 2))
    (hsq : sqrt ((log2 (3 / 2)) ^ 2) = log2 (3 / 2)) :
    build_token_inverted_index_with_freq docs3 (build_doc_inverted_index docs3) =
      some idx3 ∧
      (compute_idf log2 idx3 3 0 1).map Prod.fst = idx3.map Prod.fst ∧
      index_search sqrt ("cat") idx3 (compute_idf log2 idx3 3 0 1)
        (compute_doc_norms sqrt idx3 (compute_idf log2 idx3 3 0 1) 3) =
        some [((1 : ℚ), (0 : ℕ))] ∧
      (2 : ℕ) ∉ ([((1 : ℚ), (0 : ℕ))]).map Prod.snd := by
  refine ⟨by decide, ?_, index_search_docs3_eval log2 sqrt hlog1 hc hsq, by decide⟩
  rw [compute_idf_idx3 log2]
  rfl

/-- Witness for C5 (amended) at rational stand-ins for log2 and sqrt that satisfy
the hypotheses (log2 1 = 0, log2 (3/2) = 1 > 0, sqrt the identity). -/
theorem index_search_docs3_witness :
    build_token_inverted_index_with_freq docs3 (build_doc_inverted_index docs3) =
      some idx3 ∧
      (compute_idf log2Standin idx3 3 0 1).map Prod.fst = idx3.map Prod.fst ∧
      index_search sqrtStandin ("cat") idx3 (compute_idf log2Standin idx3 3 0 1)
        (compute_doc_norms sqrtStandin idx3 (compute_idf log2Standin idx3 3 0 1) 3) =
        some [((1 : ℚ), (0 : ℕ))] ∧
      (2 : ℕ) ∉ ([((1 : ℚ), (0 : ℕ))]).map Prod.snd :=
  index_search_docs3 log2Standin sqrtStandin (by norm_num [log2Standin])
    (by norm_num [log2Standin]) (by norm_num [log2Standin, sqrtStandin])

/-- Counterexample to C5 as stated: the claim asserts document 2 is ranked with
score 0 below document 0; in fact the ranking returned for "cat" over docs3 is
exactly [(1, 0)] and contains no entry for document 2 at all. -/
theorem index_search_docs3_no_doc2 :
    index_search sqrtStandin ("cat") idx3 (compute_idf log2Standin idx3 3 0 1)
      (compute_doc_norms sqrtStandin idx3 (compute_idf log2Standin idx3 3 0 1) 3) =
      some [((1 : ℚ), (0 : ℕ))] ∧
      (2 : ℕ) ∉ ([((1 : ℚ), (0 : ℕ))]).map Prod.snd := by
  constructor
  · exact index_search_docs3_eval log2Standin sqrtStandin (by norm_num [log2Standin])
      (by norm_num [log2Standin]) (by norm_num [log2Standin, sqrtStandin])
  · decide

end BannedBooks
